import Mathlib

/-!
# duckdb/storage/data_table.hpp

A shallow embedding of the index list and the table header state declared in
`src/include/duckdb/storage/data_table.hpp`, with the properties of
`TableIndexList` (`Scan`, `AddIndex`, `RemoveIndex`, `Empty`, `Count`),
`DataTableInfo` and `DataTable` (`SetAsRoot`, `Scan`, `RevertAppend`).

Conventions of the embedding:

* An `Index` object lives on the heap and is identified by its address. A
  `unique_ptr<Index>` and an `Index *` are both modelled by that address
  (`IndexPtr`), the null pointer being address `0`. A reference `*index`
  handed to a callback is again the address of the object.
* `vector<unique_ptr<Index>>` is a `List IndexPtr`, position `i` of the list
  being `indexes[i]`.
* `D_ASSERT(e)` is a checked precondition: an operation whose assertion fails
  yields `none`. Every property below is stated for non-null arguments.
* A callable `T &&callback` may carry state: it is a function from its
  current state and the index to its answer and its next state.
* `idx_t` counters (`Count()`, `total_rows`, `cardinality`) are natural
  numbers; no property below depends on 64-bit wrap-around.
* `lock_guard<mutex> lock(indexes_lock)` locks on construction and unlocks
  when the enclosing function returns. `Scan` records these two events
  around the callback invocations; the other operations take and release the
  lock without doing anything observable in between except the list update.
-/

namespace duckdb

/-! ## Definitions -/

/-- Address of an `Index` object (the value of `unique_ptr<Index>::get()`). -/
abbrev IndexPtr := Nat

/-- The null pointer. -/
def nullptr : IndexPtr := 0

/-- What a thread running `TableIndexList::Scan` does, in program order. -/
inductive ScanEvent where
  /-- Constructor of `lock_guard<mutex> lock(indexes_lock)`. -/
  | acquire : ScanEvent
  /-- The call `callback(*index)` on the entry `index`, with the value it returned. -/
  | invoke (index : IndexPtr) (done : Bool) : ScanEvent
  /-- Destructor of the `lock_guard`, run when `Scan` returns. -/
  | release : ScanEvent
  deriving DecidableEq, Repr

/-- The class `TableIndexList`: `indexes` is the private vector. The mutex
`indexes_lock` is free whenever no member function is running, so it is not
part of the state between calls. -/
structure TableIndexList where
  indexes : List IndexPtr
  deriving DecidableEq, Repr

/-- A stateful callback: state and entry to (return value, next state). -/
abbrev Callback (σ : Type) := σ → IndexPtr → Bool × σ

/-- The loop `for (auto &index : indexes) { if (callback(*index)) break; }`
over the remaining entries, from callback state `s` with the events `tr`
recorded so far. -/
def TableIndexList.ScanLoop {σ : Type} (callback : Callback σ) :
    List IndexPtr → σ → List ScanEvent → σ × List ScanEvent
  | [], s, tr => (s, tr)
  | index :: rest, s, tr =>
    let r := callback s index
    if r.1 then (r.2, tr ++ [ScanEvent.invoke index true])
    else TableIndexList.ScanLoop callback rest r.2 (tr ++ [ScanEvent.invoke index false])

/-- `TableIndexList::Scan`: lock, run the loop, unlock on return. Yields the
final callback state and the events of the call. -/
def TableIndexList.Scan {σ : Type} (self : TableIndexList) (callback : Callback σ) (s : σ) :
    σ × List ScanEvent :=
  let r := TableIndexList.ScanLoop callback self.indexes s [ScanEvent.acquire]
  (r.1, r.2 ++ [ScanEvent.release])

/-- `TableIndexList::AddIndex`: `D_ASSERT(index)`, then `push_back`. -/
def TableIndexList.AddIndex (self : TableIndexList) (index : IndexPtr) : Option TableIndexList :=
  if index = nullptr then none
  else some { indexes := self.indexes ++ [index] }

/-- The loop of `RemoveIndex` from position `index_idx`:
`for (; index_idx < indexes.size(); index_idx++)`, erasing at the first
position whose entry equals `index` and leaving the loop. -/
def TableIndexList.RemoveLoop (index : IndexPtr) (indexes : List IndexPtr) (index_idx : Nat) :
    List IndexPtr :=
  if h : index_idx < indexes.length then
    if indexes[index_idx] = index then indexes.eraseIdx index_idx
    else TableIndexList.RemoveLoop index indexes (index_idx + 1)
  else indexes
termination_by indexes.length - index_idx

/-- `TableIndexList::RemoveIndex`: `D_ASSERT(index)`, then the erase loop from position 0. -/
def TableIndexList.RemoveIndex (self : TableIndexList) (index : IndexPtr) : Option TableIndexList :=
  if index = nullptr then none
  else some { indexes := TableIndexList.RemoveLoop index self.indexes 0 }

/-- `TableIndexList::Empty`: `indexes.empty()`. -/
def TableIndexList.Empty (self : TableIndexList) : Bool :=
  self.indexes.isEmpty

/-- `TableIndexList::Count`: `indexes.size()`. -/
def TableIndexList.Count (self : TableIndexList) : Nat :=
  self.indexes.length

/-- The callback invocations of an event sequence, in order: entry and returned value. -/
def invocations : List ScanEvent → List (IndexPtr × Bool)
  | [] => []
  | ScanEvent.invoke index done :: tr => (index, done) :: invocations tr
  | _ :: tr => invocations tr

/-- The entries a `Scan` passes to its callback, in the order of the calls. -/
def TableIndexList.visited {σ : Type} (self : TableIndexList) (callback : Callback σ) (s : σ) :
    List IndexPtr :=
  (invocations (self.Scan callback s).2).map Prod.fst

/-- Whether the mutex is held after the events `tr`, given whether it was held before them. -/
def lockHeldAfter : List ScanEvent → Bool → Bool
  | [], held => held
  | ScanEvent.acquire :: tr, _ => lockHeldAfter tr true
  | ScanEvent.release :: tr, _ => lockHeldAfter tr false
  | ScanEvent.invoke _ _ :: tr, held => lockHeldAfter tr held

/-- Whether the scanning thread holds `indexes_lock` when event number `k` of
`tr` happens (the lock is free when `Scan` is entered). -/
def lockHeldAt (tr : List ScanEvent) (k : Nat) : Bool :=
  lockHeldAfter (tr.take k) false

/-- A callback that counts its calls and answers `true` on entries `≥ stop`. -/
def countingCallback (stop : Nat) : Callback Nat :=
  fun n index => (decide (stop ≤ index), n + 1)

/-- A column type of the table (`LogicalType`), by its type id. -/
abbrev LogicalType := Nat

/-- The struct `DataTableInfo`. `db` stands for the reference to the database
instance, `cardinality` for the atomic counter of committed rows. -/
structure DataTableInfo where
  db : Nat
  cardinality : Nat
  schema : String
  table : String
  indexes : TableIndexList
  deriving DecidableEq, Repr

/-- The constructor `DataTableInfo(db, schema, table)`: `cardinality(0)`, the
two names moved in, `indexes` default-constructed (an empty vector). -/
def DataTableInfo.new (db : Nat) (schema table : String) : DataTableInfo :=
  { db := db, cardinality := 0, schema := schema, table := table, indexes := { indexes := [] } }

/-- The data members of the class `DataTable` that the header gives a meaning
to: the shared `info`, the column `types`, the atomic counter `total_rows`
(committed and uncommitted rows) and the atomic flag `is_root`. The segment
tree and the column statistics are of types declared elsewhere and are not
touched by the operations below. -/
structure DataTable where
  info : DataTableInfo
  types : List LogicalType
  total_rows : Nat
  is_root : Bool
  deriving DecidableEq, Repr

/-- `DataTable::SetAsRoot`: `this->is_root = true;`. -/
def DataTable.SetAsRoot (self : DataTable) : DataTable :=
  { self with is_root := true }

/-- A generation chain: the `DataTable` generations of one logical table, oldest first. -/
abbrev GenerationChain := List DataTable

/-- The call `t.SetAsRoot()` on the table `t` at position `i` of the chain.
`SetAsRoot` writes the member of `this` only, so every other position keeps
its table. -/
def GenerationChain.SetAsRoot (chain : GenerationChain) (i : Nat) : GenerationChain :=
  match chain[i]? with
  | some t => chain.set i t.SetAsRoot
  | none => chain

/-- Number of tables of the chain with `is_root == true`. -/
def GenerationChain.rootCount (chain : GenerationChain) : Nat :=
  chain.countP (fun t => t.is_root)

/-- What a call of `DataTable::Scan` hands back to its caller. The member is
declared `void Scan(Transaction &, DataChunk &, TableScanState &,
vector<column_t> &)`, so this is the one-element type. -/
abbrev DataTable.ScanReturn : Type := Unit

/-- What a call of the private `DataTable::ScanBaseTable` hands back: it is declared `bool`. -/
abbrev DataTable.ScanBaseTableReturn : Type := Bool

/-- Modelled from the spec: the constructor `DataTable(db, schema, table,
types, data = nullptr)` is only declared in the header. With no persistent
data it builds an empty table: no rows, a fresh `DataTableInfo`, and, being
the only generation, the root. -/
def DataTable.new (db : Nat) (schema table : String) (types : List LogicalType) : DataTable :=
  { info := DataTableInfo.new db schema table, types := types, total_rows := 0, is_root := true }

/-- Modelled from the spec: `DataTable::GetTotalRows` is only declared in the
header. It reports `total_rows`. -/
def DataTable.GetTotalRows (self : DataTable) : Nat :=
  self.total_rows

/-- Modelled from the spec: `DataTable::Append(transaction, chunk, state)` is
only declared in the header. Section 4.3: the chunk is written into the
reserved slots and "`total_rows` is advanced immediately"; the committed
cardinality is published by `CommitAppend` only. Sections 3 and 7: a table
that is not the root refuses the append. `count` is the number of rows of
the chunk. -/
def DataTable.Append (self : DataTable) (count : Nat) : Option DataTable :=
  if self.is_root then some { self with total_rows := self.total_rows + count }
  else none

/-- Modelled from the spec: `DataTable::RevertAppend(start_row, count)` is
only declared in the header. Section 4.3: it "truncates `total_rows` back to
`start_row`"; nothing else of the header state is written. -/
def DataTable.RevertAppend (self : DataTable) (start_row _count : Nat) : DataTable :=
  { self with total_rows := start_row }

/-- An operation on a `TableIndexList` that changes its membership. -/
inductive IndexOp where
  | add (index : IndexPtr) : IndexOp
  | remove (index : IndexPtr) : IndexOp
  deriving DecidableEq, Repr

/-- Run a sequence of `AddIndex` and `RemoveIndex` calls, first to last;
`none` as soon as an assertion fails. -/
def TableIndexList.run : TableIndexList → List IndexOp → Option TableIndexList
  | l, [] => some l
  | l, IndexOp.add index :: ops =>
    match l.AddIndex index with
    | some l' => TableIndexList.run l' ops
    | none => none
  | l, IndexOp.remove index :: ops =>
    match l.RemoveIndex index with
    | some l' => TableIndexList.run l' ops
    | none => none

/-- Whether every `AddIndex` of the sequence, run from `l`, is handed an index
object that is not in the list at the time of the call. -/
def TableIndexList.addsFresh : TableIndexList → List IndexOp → Bool
  | _, [] => true
  | l, IndexOp.add index :: ops =>
    decide (index ∉ l.indexes) &&
      match l.AddIndex index with
      | some l' => TableIndexList.addsFresh l' ops
      | none => true
  | l, IndexOp.remove index :: ops =>
    match l.RemoveIndex index with
    | some l' => TableIndexList.addsFresh l' ops
    | none => true

/-- The callback state after the callback has been called on the entries
`ps` in turn, starting from state `s`. -/
def stateAfter {σ : Type} (callback : Callback σ) (s : σ) (ps : List IndexPtr) : σ :=
  ps.foldl (fun st p => (callback st p).2) s

/-- The entries the loop of `Scan` passes to the callback, in the order of the calls. -/
def loopVisited {σ : Type} (callback : Callback σ) (indexes : List IndexPtr) (s : σ) :
    List IndexPtr :=
  (invocations (TableIndexList.ScanLoop callback indexes s []).2).map Prod.fst

/-- The property "no callback invocation of `tr` happens while the lock is held". -/
def CallbackOutsideLock (tr : List ScanEvent) : Prop :=
  ∀ (k : Nat) (index : IndexPtr) (done : Bool),
    tr[k]? = some (ScanEvent.invoke index done) → lockHeldAt tr k = false

/-- A chain of two generations: the parent, still marked root, and a table
built on it that is not marked root yet. -/
def twoGenerations : GenerationChain :=
  [ { info := DataTableInfo.new 0 "main" "t", types := [1], total_rows := 0, is_root := true },
    { info := DataTableInfo.new 0 "main" "t", types := [1, 2], total_rows := 0, is_root := false } ]

/-! ## Lemmas -/

theorem invocations_append (a b : List ScanEvent) :
    invocations (a ++ b) = invocations a ++ invocations b := by
  induction a with
  | nil => rfl
  | cons e a ih => cases e <;> simp [invocations, ih]

theorem ScanLoop_acc {σ : Type} (cb : Callback σ) :
    ∀ (L : List IndexPtr) (s : σ) (tr : List ScanEvent),
      TableIndexList.ScanLoop cb L s tr =
        ((TableIndexList.ScanLoop cb L s []).1, tr ++ (TableIndexList.ScanLoop cb L s []).2) := by
  intro L
  induction L with
  | nil => intro s tr; simp [TableIndexList.ScanLoop]
  | cons p rest ih =>
    intro s tr
    simp only [TableIndexList.ScanLoop]
    by_cases h : (cb s p).1 = true
    · simp [h]
    · simp only [h, if_false, List.nil_append]
      rw [ih (cb s p).2 (tr ++ [ScanEvent.invoke p false]), ih (cb s p).2 [ScanEvent.invoke p false]]
      simp

theorem loopVisited_nil {σ : Type} (cb : Callback σ) (s : σ) : loopVisited cb [] s = [] := by
  simp [loopVisited, TableIndexList.ScanLoop, invocations]

theorem loopVisited_cons_done {σ : Type} (cb : Callback σ) (p : IndexPtr) (rest : List IndexPtr)
    (s : σ) (h : (cb s p).1 = true) : loopVisited cb (p :: rest) s = [p] := by
  simp [loopVisited, TableIndexList.ScanLoop, invocations, h]

theorem loopVisited_cons_more {σ : Type} (cb : Callback σ) (p : IndexPtr) (rest : List IndexPtr)
    (s : σ) (h : (cb s p).1 = false) :
    loopVisited cb (p :: rest) s = p :: loopVisited cb rest (cb s p).2 := by
  simp only [loopVisited, TableIndexList.ScanLoop, h]
  rw [ScanLoop_acc]
  simp [invocations, invocations_append]

theorem visited_eq_loopVisited {σ : Type} (L : TableIndexList) (cb : Callback σ) (s : σ) :
    L.visited cb s = loopVisited cb L.indexes s := by
  simp only [TableIndexList.visited, TableIndexList.Scan, loopVisited]
  rw [ScanLoop_acc]
  simp [invocations, invocations_append]

theorem Scan_state {σ : Type} (L : TableIndexList) (cb : Callback σ) (s : σ) :
    (L.Scan cb s).1 = (TableIndexList.ScanLoop cb L.indexes s []).1 := by
  simp only [TableIndexList.Scan]
  rw [ScanLoop_acc]

theorem loop_state {σ : Type} (cb : Callback σ) :
    ∀ (L : List IndexPtr) (s : σ),
      (TableIndexList.ScanLoop cb L s []).1 = stateAfter cb s (loopVisited cb L s) := by
  intro L
  induction L with
  | nil => intro s; simp [loopVisited_nil, stateAfter, TableIndexList.ScanLoop]
  | cons p rest ih =>
    intro s
    by_cases h : (cb s p).1 = true
    · rw [loopVisited_cons_done cb p rest s h]
      simp [TableIndexList.ScanLoop, h, stateAfter]
    · have h' : (cb s p).1 = false := by simpa using h
      rw [loopVisited_cons_more cb p rest s h']
      simp only [TableIndexList.ScanLoop, h']
      rw [ScanLoop_acc]
      simp only [stateAfter, List.foldl_cons]
      exact ih (cb s p).2

theorem loop_spec {σ : Type} (cb : Callback σ) :
    ∀ (L : List IndexPtr) (s : σ),
      (loopVisited cb L s = L ∧
          ∀ pre x post, L = pre ++ x :: post → (cb (stateAfter cb s pre) x).1 = false) ∨
        (∃ pre x post, L = pre ++ x :: post ∧ loopVisited cb L s = pre ++ [x] ∧
          (cb (stateAfter cb s pre) x).1 = true ∧
          ∀ a y b, pre = a ++ y :: b → (cb (stateAfter cb s a) y).1 = false) := by
  intro L
  induction L with
  | nil =>
    intro s
    left
    refine ⟨loopVisited_nil cb s, ?_⟩
    intro pre x post h
    simp at h
  | cons p rest ih =>
    intro s
    by_cases h : (cb s p).1 = true
    · right
      refine ⟨[], p, rest, rfl, ?_, ?_, ?_⟩
      · simpa using loopVisited_cons_done cb p rest s h
      · simpa [stateAfter] using h
      · intro a y b hab
        simp at hab
    · have h' : (cb s p).1 = false := by simpa using h
      rcases ih (cb s p).2 with ⟨hv, hall⟩ | ⟨pre, x, post, hL, hv, hx, hpre⟩
      · left
        refine ⟨?_, ?_⟩
        · rw [loopVisited_cons_more cb p rest s h', hv]
        · intro pre x post hsplit
          cases pre with
          | nil =>
            simp at hsplit
            obtain ⟨rfl, _⟩ := hsplit
            simpa [stateAfter] using h'
          | cons q pre =>
            simp at hsplit
            obtain ⟨rfl, hrest⟩ := hsplit
            have := hall pre x post hrest
            simpa [stateAfter] using this
      · right
        refine ⟨p :: pre, x, post, ?_, ?_, ?_, ?_⟩
        · simp [hL]
        · rw [loopVisited_cons_more cb p rest s h', hv]; simp
        · simpa [stateAfter] using hx
        · intro a y b hab
          cases a with
          | nil =>
            simp at hab
            obtain ⟨rfl, _⟩ := hab
            simpa [stateAfter] using h'
          | cons q a =>
            simp at hab
            obtain ⟨rfl, hrest⟩ := hab
            have := hpre a y b hrest
            simpa [stateAfter] using this

theorem loopVisited_never_done {σ : Type} (cb : Callback σ) (hcb : ∀ st p, (cb st p).1 = false) :
    ∀ (L : List IndexPtr) (s : σ), loopVisited cb L s = L := by
  intro L
  induction L with
  | nil => intro s; exact loopVisited_nil cb s
  | cons p rest ih =>
    intro s
    rw [loopVisited_cons_more cb p rest s (hcb s p), ih]

theorem RemoveLoop_from (p : IndexPtr) :
    ∀ (suf pre : List IndexPtr),
      TableIndexList.RemoveLoop p (pre ++ suf) pre.length = pre ++ suf.erase p := by
  intro suf
  induction suf with
  | nil =>
    intro pre
    rw [TableIndexList.RemoveLoop]
    simp
  | cons x rest ih =>
    intro pre
    rw [TableIndexList.RemoveLoop]
    have hlt : pre.length < (pre ++ x :: rest).length := by simp
    simp only [hlt, dite_true]
    have hget : (pre ++ x :: rest)[pre.length] = x := List.getElem_of_append rfl rfl
    rw [hget]
    by_cases hx : x = p
    · subst hx
      simp [List.eraseIdx_append_of_length_le]
    · simp only [hx, if_false]
      have := ih (pre ++ [x])
      simp only [List.append_assoc, List.singleton_append, List.length_append,
        List.length_singleton] at this
      rw [this]
      have hne : (x == p) = false := by simpa using hx
      simp [List.erase_cons, hne]

theorem RemoveLoop_eq_erase (p : IndexPtr) (L : List IndexPtr) :
    TableIndexList.RemoveLoop p L 0 = L.erase p := by
  simpa using RemoveLoop_from p L []

theorem ScanLoop_events_are_invocations {σ : Type} (cb : Callback σ) :
    ∀ (L : List IndexPtr) (s : σ),
      ∀ e ∈ (TableIndexList.ScanLoop cb L s []).2, ∃ index done, e = ScanEvent.invoke index done := by
  intro L
  induction L with
  | nil => intro s e he; simp [TableIndexList.ScanLoop] at he
  | cons p rest ih =>
    intro s e he
    simp only [TableIndexList.ScanLoop] at he
    by_cases h : (cb s p).1 = true
    · rw [if_pos h] at he
      simp only [List.nil_append, List.mem_singleton] at he
      exact ⟨p, true, he⟩
    · rw [if_neg h, ScanLoop_acc] at he
      simp only [List.nil_append, List.mem_append, List.mem_singleton] at he
      rcases he with he | he
      · exact ⟨p, false, he⟩
      · exact ih (cb s p).2 e he

theorem lockHeldAfter_invocations (held : Bool) :
    ∀ (tr : List ScanEvent), (∀ e ∈ tr, ∃ index done, e = ScanEvent.invoke index done) →
      lockHeldAfter tr held = held := by
  intro tr
  induction tr with
  | nil => intro _; rfl
  | cons e tr ih =>
    intro h
    obtain ⟨index, done, rfl⟩ := h e (List.mem_cons_self _ _)
    simp only [lockHeldAfter]
    exact ih (fun e he => h e (List.mem_cons_of_mem _ he))

theorem lockHeldAfter_append (a b : List ScanEvent) (held : Bool) :
    lockHeldAfter (a ++ b) held = lockHeldAfter b (lockHeldAfter a held) := by
  induction a generalizing held with
  | nil => rfl
  | cons e a ih => cases e <;> simp [lockHeldAfter, ih]

theorem rootCount_cons (t : DataTable) (chain : GenerationChain) :
    GenerationChain.rootCount (t :: chain) =
      GenerationChain.rootCount chain + (if t.is_root then 1 else 0) := by
  simp [GenerationChain.rootCount, List.countP_cons]

theorem SetAsRoot_zero (t : DataTable) (chain : GenerationChain) :
    GenerationChain.SetAsRoot (t :: chain) 0 = t.SetAsRoot :: chain := by
  simp [GenerationChain.SetAsRoot]

theorem SetAsRoot_succ (t : DataTable) (chain : GenerationChain) (i : Nat) :
    GenerationChain.SetAsRoot (t :: chain) (i + 1) = t :: GenerationChain.SetAsRoot chain i := by
  simp only [GenerationChain.SetAsRoot, List.getElem?_cons_succ]
  cases chain[i]? <;> simp

theorem SetAsRoot_getElem?_ne (chain : GenerationChain) (i j : Nat) (hij : j ≠ i) :
    (GenerationChain.SetAsRoot chain i)[j]? = chain[j]? := by
  simp only [GenerationChain.SetAsRoot]
  cases h : chain[i]? with
  | none => rfl
  | some t => simp [List.getElem?_set_ne (Ne.symm hij)]

theorem SetAsRoot_getElem?_self (chain : GenerationChain) (i : Nat) :
    (GenerationChain.SetAsRoot chain i)[i]? = chain[i]?.map DataTable.SetAsRoot := by
  simp only [GenerationChain.SetAsRoot]
  cases h : chain[i]? with
  | none => simp [h]
  | some t =>
    have hi : i < chain.length := by
      by_contra hcon
      rw [List.getElem?_eq_none (Nat.le_of_not_lt hcon)] at h
      cases h
    simp [List.getElem?_set_self hi]

theorem rootCount_SetAsRoot_le (chain : GenerationChain) :
    ∀ i, GenerationChain.rootCount (GenerationChain.SetAsRoot chain i) ≤
      GenerationChain.rootCount chain + 1 := by
  induction chain with
  | nil => intro i; simp [GenerationChain.SetAsRoot, GenerationChain.rootCount]
  | cons t chain ih =>
    intro i
    cases i with
    | zero =>
      rw [SetAsRoot_zero, rootCount_cons, rootCount_cons]
      simp only [DataTable.SetAsRoot, if_true]
      omega
    | succ i =>
      rw [SetAsRoot_succ, rootCount_cons, rootCount_cons]
      have := ih i
      omega

theorem rootCount_eq_zero (chain : GenerationChain)
    (h : ∀ (j : Nat) (t : DataTable), chain[j]? = some t → t.is_root = false) :
    GenerationChain.rootCount chain = 0 := by
  induction chain with
  | nil => rfl
  | cons t chain ih =>
    rw [rootCount_cons]
    have h0 : t.is_root = false := h 0 t (by simp)
    have hrest : GenerationChain.rootCount chain = 0 :=
      ih (fun j u hu => h (j + 1) u (by simpa using hu))
    simp [h0, hrest]

theorem rootCount_SetAsRoot_eq_one (chain : GenerationChain) :
    ∀ i, i < chain.length →
      (∀ (j : Nat) (t : DataTable), j ≠ i → chain[j]? = some t → t.is_root = false) →
      GenerationChain.rootCount (GenerationChain.SetAsRoot chain i) = 1 := by
  induction chain with
  | nil => intro i hi; simp at hi
  | cons t chain ih =>
    intro i hi hother
    cases i with
    | zero =>
      rw [SetAsRoot_zero, rootCount_cons]
      have hrest : GenerationChain.rootCount chain = 0 :=
        rootCount_eq_zero chain (fun j u hu => hother (j + 1) u (by omega) (by simpa using hu))
      simp [DataTable.SetAsRoot, hrest]
    | succ i =>
      rw [SetAsRoot_succ, rootCount_cons]
      have h0 : t.is_root = false := hother 0 t (by omega) (by simp)
      have hrest := ih i (by simpa using hi)
        (fun j u hj hu => hother (j + 1) u (by omega) (by simpa using hu))
      simp [h0, hrest]

theorem run_preserves_nodup :
    ∀ (ops : List IndexOp) (L0 L : TableIndexList), L0.indexes.Nodup →
      L0.addsFresh ops = true → L0.run ops = some L → L.indexes.Nodup := by
  intro ops
  induction ops with
  | nil =>
    intro L0 L hnd _ hrun
    simp only [TableIndexList.run, Option.some.injEq] at hrun
    rw [← hrun]
    exact hnd
  | cons op ops ih =>
    intro L0 L hnd hfresh hrun
    cases op with
    | add index =>
      by_cases hnull : index = nullptr
      · simp [TableIndexList.run, TableIndexList.AddIndex, hnull] at hrun
      · simp only [TableIndexList.run, TableIndexList.AddIndex, hnull, if_false] at hrun
        simp only [TableIndexList.addsFresh, TableIndexList.AddIndex, hnull, if_false,
          Bool.and_eq_true, decide_eq_true_eq] at hfresh
        refine ih _ L ?_ hfresh.2 hrun
        simp only [List.nodup_append, List.nodup_singleton, true_and]
        refine ⟨hnd, ?_⟩
        intro a ha hb
        simp only [List.mem_singleton] at hb
        subst hb
        exact hfresh.1 ha
    | remove index =>
      by_cases hnull : index = nullptr
      · simp [TableIndexList.run, TableIndexList.RemoveIndex, hnull] at hrun
      · simp only [TableIndexList.run, TableIndexList.RemoveIndex, hnull, if_false] at hrun
        simp only [TableIndexList.addsFresh, TableIndexList.RemoveIndex, hnull, if_false] at hfresh
        refine ih _ L ?_ hfresh hrun
        simp only [RemoveLoop_eq_erase]
        exact hnd.erase index

/-! ## TableIndexList -/

/-- C1: `TableIndexList::Scan` passes the entries of the list to the callback
in list order from the first entry and stops right after the first call that
returns true. Either every entry was passed and every call returned false,
or the entries passed are a front part `pre` of the list followed by one
entry `x`, the call on `x` returned true, every call before it returned
false, and no entry after `x` was passed. The callback state `Scan` ends in
is the state after exactly these calls. A callback that returns false on
every entry is called exactly once on each entry, in order. -/
theorem Scan_passes_entries_in_order_until_done {σ : Type} (L : TableIndexList)
    (cb : Callback σ) (s : σ) :
    ((L.visited cb s = L.indexes ∧
          ∀ pre x post, L.indexes = pre ++ x :: post → (cb (stateAfter cb s pre) x).1 = false) ∨
        (∃ pre x post, L.indexes = pre ++ x :: post ∧ L.visited cb s = pre ++ [x] ∧
          (cb (stateAfter cb s pre) x).1 = true ∧
          ∀ a y b, pre = a ++ y :: b → (cb (stateAfter cb s a) y).1 = false)) ∧
      (L.Scan cb s).1 = stateAfter cb s (L.visited cb s) ∧
      ((∀ st p, (cb st p).1 = false) → L.visited cb s = L.indexes) := by
  rw [visited_eq_loopVisited, Scan_state]
  refine ⟨loop_spec cb L.indexes s, loop_state cb L.indexes s, ?_⟩
  intro hcb
  exact loopVisited_never_done cb hcb L.indexes s

/-- C2: for a non-null `index`, `TableIndexList::RemoveIndex(index)` returns
normally; when `index` is in the list, the result is the list with the first
entry equal to `index` erased, every other entry kept in its order, and
`Count` is one less; when `index` is not in the list, the list is unchanged. -/
theorem RemoveIndex_erases_first_match (L : TableIndexList) (index : IndexPtr)
    (hindex : index ≠ nullptr) :
    ∃ L', L.RemoveIndex index = some L' ∧
      (index ∈ L.indexes →
        ∃ pre post, L.indexes = pre ++ index :: post ∧ index ∉ pre ∧
          L'.indexes = pre ++ post ∧ L'.Count + 1 = L.Count) ∧
      (index ∉ L.indexes → L' = L) := by
  refine ⟨{ indexes := TableIndexList.RemoveLoop index L.indexes 0 }, ?_, ?_, ?_⟩
  · simp [TableIndexList.RemoveIndex, hindex]
  · intro hmem
    obtain ⟨pre, post, hnot, hsplit, herase⟩ := List.exists_erase_eq hmem
    refine ⟨pre, post, hsplit, hnot, ?_, ?_⟩
    · simp only [RemoveLoop_eq_erase]
      exact herase
    · simp only [TableIndexList.Count, RemoveLoop_eq_erase, herase]
      rw [hsplit]
      simp
      omega
  · intro hnot
    simp only [RemoveLoop_eq_erase, List.erase_of_not_mem hnot]

/-- Witness of C2 on the list `[3, 5, 9, 5, 4]` and the index `5`. -/
theorem RemoveIndex_erases_first_match_witness :
    (5 : IndexPtr) ≠ nullptr ∧
      ∃ L', (TableIndexList.mk [3, 5, 9, 5, 4]).RemoveIndex 5 = some L' ∧
        ((5 : IndexPtr) ∈ (TableIndexList.mk [3, 5, 9, 5, 4]).indexes →
          ∃ pre post, (TableIndexList.mk [3, 5, 9, 5, 4]).indexes = pre ++ 5 :: post ∧
            (5 : IndexPtr) ∉ pre ∧ L'.indexes = pre ++ post ∧
            L'.Count + 1 = (TableIndexList.mk [3, 5, 9, 5, 4]).Count) ∧
        ((5 : IndexPtr) ∉ (TableIndexList.mk [3, 5, 9, 5, 4]).indexes →
          L' = TableIndexList.mk [3, 5, 9, 5, 4]) :=
  ⟨by decide, RemoveIndex_erases_first_match (TableIndexList.mk [3, 5, 9, 5, 4]) 5 (by decide)⟩

/-- C3: for a non-null `index`, `TableIndexList::AddIndex(index)` returns
normally with the list followed by `index`: `Count` is one more, `Empty` is
false, every position of the old list holds the entry it held, and a `Scan`
whose callback never returns true then visits the old entries in order and
`index` last. -/
theorem AddIndex_appends_at_end (L : TableIndexList) (index : IndexPtr)
    (hindex : index ≠ nullptr) :
    ∃ L', L.AddIndex index = some L' ∧
      L'.indexes = L.indexes ++ [index] ∧
      L'.Count = L.Count + 1 ∧
      L'.Empty = false ∧
      (∀ i, i < L.Count → L'.indexes[i]? = L.indexes[i]?) ∧
      ∀ (σ : Type) (cb : Callback σ) (s : σ), (∀ st p, (cb st p).1 = false) →
        L'.visited cb s = L.indexes ++ [index] ∧ (L'.visited cb s).getLast? = some index := by
  refine ⟨{ indexes := L.indexes ++ [index] }, ?_, rfl, ?_, ?_, ?_, ?_⟩
  · simp [TableIndexList.AddIndex, hindex]
  · simp [TableIndexList.Count]
  · simp [TableIndexList.Empty]
  · intro i hi
    simp only [TableIndexList.Count] at hi
    exact List.getElem?_append_left hi
  · intro σ cb s hcb
    have hv : (TableIndexList.mk (L.indexes ++ [index])).visited cb s = L.indexes ++ [index] := by
      rw [visited_eq_loopVisited]
      exact loopVisited_never_done cb hcb _ s
    refine ⟨hv, ?_⟩
    rw [hv]
    simp

/-- Witness of C3 on the list `[3, 5]` and the index `9`. -/
theorem AddIndex_appends_at_end_witness :
    (9 : IndexPtr) ≠ nullptr ∧
      (TableIndexList.mk [3, 5]).AddIndex 9 = some (TableIndexList.mk [3, 5, 9]) := by
  refine ⟨by decide, ?_⟩
  obtain ⟨L', hadd, hidx, _⟩ := AddIndex_appends_at_end (TableIndexList.mk [3, 5]) 9 (by decide)
  rw [hadd]
  cases L' with
  | mk l =>
    simp only at hidx
    rw [hidx]
    rfl

/-- C9: `Empty()` returns true exactly when `Count()` returns 0; `Count()` is
the number of entries a `Scan` with a callback that always returns false
visits; and the index list of a freshly constructed `DataTableInfo` has
`Count() == 0`. -/
theorem Empty_iff_Count_zero (L : TableIndexList) :
    (L.Empty = true ↔ L.Count = 0) ∧
      (∀ (σ : Type) (cb : Callback σ) (s : σ), (∀ st p, (cb st p).1 = false) →
        (invocations (L.Scan cb s).2).length = L.Count ∧ (L.visited cb s).length = L.Count) ∧
      ∀ (db : Nat) (schema table : String), (DataTableInfo.new db schema table).indexes.Count = 0 := by
  refine ⟨?_, ?_, ?_⟩
  · simp [TableIndexList.Empty, TableIndexList.Count, List.isEmpty_iff]
  · intro σ cb s hcb
    have hv : L.visited cb s = L.indexes := by
      rw [visited_eq_loopVisited]
      exact loopVisited_never_done cb hcb _ s
    have hlen : (L.visited cb s).length = L.Count := by rw [hv]; rfl
    refine ⟨?_, hlen⟩
    simpa [TableIndexList.visited] using hlen
  · intro db schema table
    rfl

/-- C10: for a non-null `index` that is not in the list, `AddIndex(index)`
followed by `RemoveIndex(index)` returns normally and gives back the list it
started from: same entries, same order, same `Count`. -/
theorem AddIndex_then_RemoveIndex_restores (L : TableIndexList) (index : IndexPtr)
    (hindex : index ≠ nullptr) (hfresh : index ∉ L.indexes) :
    (L.AddIndex index).bind (fun L' => L'.RemoveIndex index) = some L := by
  simp only [TableIndexList.AddIndex, hindex, if_false, Option.some_bind,
    TableIndexList.RemoveIndex, RemoveLoop_eq_erase]
  have h : (L.indexes ++ [index]).erase index = L.indexes := by
    rw [List.erase_append_right _ hfresh]
    simp
  rw [h]

/-- Witness of C10 on the list `[3, 5]` and the index `9`. -/
theorem AddIndex_then_RemoveIndex_restores_witness :
    (9 : IndexPtr) ≠ nullptr ∧ (9 : IndexPtr) ∉ (TableIndexList.mk [3, 5]).indexes ∧
      ((TableIndexList.mk [3, 5]).AddIndex 9).bind (fun L' => L'.RemoveIndex 9) =
        some (TableIndexList.mk [3, 5]) :=
  ⟨by decide, by decide,
    AddIndex_then_RemoveIndex_restores (TableIndexList.mk [3, 5]) 9 (by decide) (by decide)⟩

/-- C8: in every state reached from the empty `TableIndexList` by a sequence
of `AddIndex` and `RemoveIndex` calls in which each `AddIndex` is handed an
index that is not in the list at that time, no index occurs more than once in
the list. -/
theorem reachable_index_list_has_no_duplicates (ops : List IndexOp) (L : TableIndexList)
    (hfresh : (TableIndexList.mk []).addsFresh ops = true)
    (hrun : (TableIndexList.mk []).run ops = some L) :
    L.indexes.Nodup ∧ ∀ index, L.indexes.count index ≤ 1 := by
  have hnd : L.indexes.Nodup :=
    run_preserves_nodup ops (TableIndexList.mk []) L List.nodup_nil hfresh hrun
  exact ⟨hnd, fun index => List.nodup_iff_count_le_one.1 hnd index⟩

/-- Witness of C8 on the calls `AddIndex(1)`, `AddIndex(2)`, `RemoveIndex(1)`,
`AddIndex(1)`, which end in the list `[2, 1]`. -/
theorem reachable_index_list_has_no_duplicates_witness :
    (TableIndexList.mk []).addsFresh
        [IndexOp.add 1, IndexOp.add 2, IndexOp.remove 1, IndexOp.add 1] = true ∧
      (TableIndexList.mk []).run
        [IndexOp.add 1, IndexOp.add 2, IndexOp.remove 1, IndexOp.add 1] =
          some (TableIndexList.mk [2, 1]) ∧
      (TableIndexList.mk [2, 1]).indexes.Nodup ∧
      ∀ index, (TableIndexList.mk [2, 1]).indexes.count index ≤ 1 := by
  have hfresh : (TableIndexList.mk []).addsFresh
      [IndexOp.add 1, IndexOp.add 2, IndexOp.remove 1, IndexOp.add 1] = true := by
    simp [TableIndexList.addsFresh, TableIndexList.AddIndex, TableIndexList.RemoveIndex,
      RemoveLoop_eq_erase, nullptr]
  have hrun : (TableIndexList.mk []).run
      [IndexOp.add 1, IndexOp.add 2, IndexOp.remove 1, IndexOp.add 1] =
        some (TableIndexList.mk [2, 1]) := by
    simp [TableIndexList.run, TableIndexList.AddIndex, TableIndexList.RemoveIndex,
      RemoveLoop_eq_erase, nullptr]
  exact ⟨hfresh, hrun, reachable_index_list_has_no_duplicates _ _ hfresh hrun⟩

/-! ## The lock of TableIndexList::Scan -/

/-- C4, as stated, fails: scanning the one-entry list `[7]` with a callback
that returns false, the callback is invoked (event 1) while the scanning
thread holds `indexes_lock`. -/
theorem Scan_callback_outside_lock_fails :
    ¬ CallbackOutsideLock ((TableIndexList.mk [7]).Scan (countingCallback 100) 0).2 := by
  intro h
  have h1 := h 1 7 false (by decide)
  revert h1
  decide

/-- C4, amended: `Scan` locks `indexes_lock` first, then only invokes the
callback, and unlocks last, when it returns: every callback invocation
happens while the scanning thread holds the lock, and the lock is free again
once `Scan` has returned. -/
theorem Scan_holds_lock_during_callbacks {σ : Type} (L : TableIndexList) (cb : Callback σ)
    (s : σ) :
    ∃ calls, (L.Scan cb s).2 = ScanEvent.acquire :: calls ++ [ScanEvent.release] ∧
      (∀ e ∈ calls, ∃ index done, e = ScanEvent.invoke index done) ∧
      (∀ k index done, (L.Scan cb s).2[k]? = some (ScanEvent.invoke index done) →
        lockHeldAt (L.Scan cb s).2 k = true) ∧
      lockHeldAfter (L.Scan cb s).2 false = false := by
  have hcalls := ScanLoop_events_are_invocations cb L.indexes s
  have htr : (L.Scan cb s).2 =
      ScanEvent.acquire :: (TableIndexList.ScanLoop cb L.indexes s []).2 ++ [ScanEvent.release] := by
    simp only [TableIndexList.Scan]
    rw [ScanLoop_acc]
    simp
  refine ⟨(TableIndexList.ScanLoop cb L.indexes s []).2, htr, hcalls, ?_, ?_⟩
  · intro k index done hk
    rw [htr] at hk ⊢
    generalize (TableIndexList.ScanLoop cb L.indexes s []).2 = calls at hcalls hk ⊢
    cases k with
    | zero => simp at hk
    | succ j =>
      simp only [List.cons_append, List.getElem?_cons_succ] at hk
      have hj : j < calls.length := by
        by_contra hcon
        have hle : calls.length ≤ j := Nat.le_of_not_lt hcon
        rw [List.getElem?_append_right hle] at hk
        rcases Nat.eq_zero_or_pos (j - calls.length) with h0 | hpos
        · rw [h0] at hk
          simp at hk
        · have : ([ScanEvent.release] : List ScanEvent)[j - calls.length]? = none := by
            apply List.getElem?_eq_none
            simp
            omega
          rw [this] at hk
          cases hk
      have htake : (calls ++ [ScanEvent.release]).take j = calls.take j :=
        List.take_append_of_le_length (Nat.le_of_lt hj)
      have hstep : lockHeldAt (ScanEvent.acquire :: calls ++ [ScanEvent.release]) (j + 1) =
          lockHeldAfter ((calls ++ [ScanEvent.release]).take j) true := rfl
      rw [hstep, htake]
      exact lockHeldAfter_invocations true (calls.take j)
        (fun e he => hcalls e (List.mem_of_mem_take he))
  · rw [htr]
    have hstep : lockHeldAfter
        (ScanEvent.acquire :: (TableIndexList.ScanLoop cb L.indexes s []).2 ++ [ScanEvent.release])
        false =
        lockHeldAfter ((TableIndexList.ScanLoop cb L.indexes s []).2 ++ [ScanEvent.release])
          true := rfl
    rw [hstep, lockHeldAfter_append, lockHeldAfter_invocations true _ hcalls]
    rfl

/-! ## DataTable -/

/-- C6, as stated, fails: in the chain `twoGenerations` exactly one table (the
parent) has `is_root == true`; after `SetAsRoot()` on the other table two
tables have it. -/
theorem SetAsRoot_root_uniqueness_fails :
    GenerationChain.rootCount twoGenerations ≤ 1 ∧ 1 < twoGenerations.length ∧
      ¬ GenerationChain.rootCount (GenerationChain.SetAsRoot twoGenerations 1) ≤ 1 := by
  decide

/-- C6, amended: `SetAsRoot()` on the table at position `i` of a chain sets
that table's `is_root` and nothing else: its other members and every other
table of the chain are unchanged, so the number of roots grows by at most
one; and when no other table of the chain has `is_root == true`, exactly one
table of the chain has it afterwards. -/
theorem SetAsRoot_sets_only_its_table (chain : GenerationChain) (i : Nat)
    (hi : i < chain.length) :
    (∃ t, chain[i]? = some t ∧
        (GenerationChain.SetAsRoot chain i)[i]? = some { t with is_root := true }) ∧
      (∀ j, j ≠ i → (GenerationChain.SetAsRoot chain i)[j]? = chain[j]?) ∧
      GenerationChain.rootCount (GenerationChain.SetAsRoot chain i) ≤
        GenerationChain.rootCount chain + 1 ∧
      ((∀ (j : Nat) (t : DataTable), j ≠ i → chain[j]? = some t → t.is_root = false) →
        GenerationChain.rootCount (GenerationChain.SetAsRoot chain i) = 1) := by
  refine ⟨⟨chain[i], List.getElem?_eq_getElem hi, ?_⟩, ?_, rootCount_SetAsRoot_le chain i,
    rootCount_SetAsRoot_eq_one chain i hi⟩
  · rw [SetAsRoot_getElem?_self, List.getElem?_eq_getElem hi]
    rfl
  · intro j hj
    exact SetAsRoot_getElem?_ne chain i j hj

/-- Witness of the amended C6: `SetAsRoot()` on the parent of `twoGenerations`,
the only table of that chain that is root already. -/
theorem SetAsRoot_sets_only_its_table_witness :
    0 < twoGenerations.length ∧
      (∀ (j : Nat) (t : DataTable), j ≠ 0 → twoGenerations[j]? = some t → t.is_root = false) ∧
      GenerationChain.rootCount (GenerationChain.SetAsRoot twoGenerations 0) = 1 := by
  have hother : ∀ (j : Nat) (t : DataTable), j ≠ 0 → twoGenerations[j]? = some t →
      t.is_root = false := by
    intro j t hj ht
    match j, hj with
    | 1, _ =>
      simp [twoGenerations] at ht
      rw [← ht]
    | j + 2, _ => simp [twoGenerations] at ht
  exact ⟨by decide, hother,
    (SetAsRoot_sets_only_its_table twoGenerations 0 (by decide)).2.2.2 hother⟩

/-- C5: `DataTable::Scan` is declared `void`: all its calls hand back the same
value, so nothing read off that value is true on some calls and false on
others, as a flag "all pushed-down filters were executed" would be. The
boolean exists one level down, in what the private `ScanBaseTable` returns. -/
theorem Scan_returns_no_filter_flag :
    (∀ r r2 : DataTable.ScanReturn, r = r2) ∧
      (¬ ∃ flag : DataTable.ScanReturn → Bool, (∃ r, flag r = true) ∧ (∃ r, flag r = false)) ∧
      (∃ b b2 : DataTable.ScanBaseTableReturn, b ≠ b2) := by
  refine ⟨fun _ _ => rfl, ?_, ⟨true, false, by decide⟩⟩
  rintro ⟨flag, ⟨r, hr⟩, ⟨r2, hr2⟩⟩
  have : r = r2 := rfl
  rw [this, hr2] at hr
  cases hr

/-- C7: `RevertAppend(start_row, count)` sets `total_rows` to `start_row` and
leaves the committed cardinality as it is, on every table state; so after an
append of `count` rows to a root table, reverting to the pre-append
`total_rows` restores it. In particular, on an empty table, after two
uncommitted appends of 500 rows each, `RevertAppend(500, 500)` leaves
`GetTotalRows() == 500` and `info->cardinality == 0`. -/
theorem RevertAppend_restores_total_rows :
    (∀ (t : DataTable) (start_row count : Nat),
        (t.RevertAppend start_row count).GetTotalRows = start_row ∧
        (t.RevertAppend start_row count).info.cardinality = t.info.cardinality) ∧
      (∀ (t : DataTable) (count : Nat), t.is_root = true →
        ∃ t', t.Append count = some t' ∧
          t'.GetTotalRows = t.GetTotalRows + count ∧
          t'.info.cardinality = t.info.cardinality ∧
          (t'.RevertAppend t.GetTotalRows count).GetTotalRows = t.GetTotalRows ∧
          (t'.RevertAppend t.GetTotalRows count).info.cardinality = t.info.cardinality) ∧
      (∀ (db : Nat) (schema table : String) (types : List LogicalType),
        ∃ a b, (DataTable.new db schema table types).Append 500 = some a ∧
          a.Append 500 = some b ∧
          b.GetTotalRows = 1000 ∧
          (b.RevertAppend 500 500).GetTotalRows = 500 ∧
          (b.RevertAppend 500 500).info.cardinality = 0) := by
  refine ⟨fun t start_row count => ⟨rfl, rfl⟩, ?_, ?_⟩
  · intro t count hroot
    exact ⟨{ t with total_rows := t.total_rows + count }, by simp [DataTable.Append, hroot],
      rfl, rfl, rfl, rfl⟩
  · intro db schema table types
    exact ⟨_, _, rfl, rfl, rfl, rfl, rfl⟩

end duckdb
